import Mathlib

/-!
Verification development for the IB partner portal backend
(commission computation and trade-sync reconciliation engine).

The JavaScript source is shallowly embedded: JS numbers are modelled as
rationals (`ℚ`), JS strings as `String`, SQL nullable columns as `Option`,
the `ib_trade_history` table as a `List` of rows, and JS objects used as
string-keyed maps as association lists with overwrite-on-assignment
semantics.  Every definition is translated from the source files
(`models/IBWithdrawal.js`, `models/IBTradeHistory.js` a.k.a. the upsert
engine, `routes/userProfile.js`, `routes/userClients.js`, `routes/auth.js`,
`server.js`), except the definitions explicitly marked as modelling the
specification's words for comparison purposes.
-/

unseal Rat.mul Rat.add Rat.inv Rat.sub

namespace ZupIB

/-- JS whitespace test used by `String.prototype.trim` (ASCII subset that
occurs in the data handled here). -/
def isWsChar (c : Char) : Bool :=
  c = ' ' || c = '\t' || c = '\n' || c = '\r'

/-- Model of `String.prototype.trim`: drop leading and trailing whitespace. -/
def trimStr (s : String) : String :=
  String.mk (((s.data.dropWhile isWsChar).reverse.dropWhile isWsChar).reverse)

/-- Model of `String.prototype.toLowerCase` (ASCII). -/
def lowerStr (s : String) : String :=
  String.mk (s.data.map Char.toLower)

/-- `s.replace(/\\\\/g, '/')` from `makeKeys`: the regex literal `\\\\`
matches TWO consecutive backslash characters, so only double-backslash
pairs are replaced by a single forward slash. -/
def replDoubleBack : List Char → List Char
  | '\\' :: '\\' :: rest => '/' :: replDoubleBack rest
  | c :: rest => c :: replDoubleBack rest
  | [] => []

/-- `s.replace(/\//g, '\\')` from `makeKeys`: every forward slash becomes a
backslash. -/
def replSlashBack (l : List Char) : List Char :=
  l.map (fun c => if c = '/' then '\\' else c)

/-- Separator test of the regex character class `[\\/]`: a single backslash
or a single forward slash. -/
def isSepChar (c : Char) : Bool :=
  c = '\\' || c = '/'

/-- Splitting helper: accumulate the current field (reversed) while
scanning; JS `split` keeps empty fields and yields `[""]` on `""`. -/
def splitCharsAux (sep : Char → Bool) : List Char → List Char → List String
  | [], acc => [String.mk acc.reverse]
  | c :: rest, acc =>
    if sep c then String.mk acc.reverse :: splitCharsAux sep rest []
    else splitCharsAux sep rest (c :: acc)

/-- `s.split(/[\\\\/]/)` : split on every single separator character. -/
def splitSeps (s : String) : List String :=
  splitCharsAux isSepChar s.data []

/-- `parts[parts.length - 1] || s` : the last segment, with fallback to the
whole string when the last segment is empty. -/
def lastSegment (s : String) : String :=
  let parts := splitSeps s
  if parts.getLastD "" = "" then s else parts.getLastD ""

/-- The `afterBbook` scan of `makeKeys`: the segment immediately following
the first segment that literally equals `"bbook"`, when there is one. -/
def afterBbook : List String → Option String
  | a :: b :: rest => if a = "bbook" then some b else afterBbook (b :: rest)
  | _ => none

/-- JS `Set` insertion: append iff not already present (keeps first
occurrence order, as `Array.from(new Set([...]))` does). -/
def dedupAppend (l : List String) (x : String) : List String :=
  if x ∈ l then l else l ++ [x]

/-- `makeKeys` from `IBWithdrawal.getSummary`: the candidate-key set
derived from one raw broker group string.  The after-`bbook` segment is
added under the truthiness guard `if (afterBbook)`, so an *empty* segment
(e.g. from a doubled backslash right after `bbook`) is NOT added. -/
def makeKeys (gid : String) : List String :=
  if gid = "" then []
  else
    let s := lowerStr (trimStr gid)
    let fwd := String.mk (replDoubleBack s.data)
    let bwd := String.mk (replSlashBack s.data)
    let last := lastSegment s
    let base := dedupAppend (dedupAppend (dedupAppend (dedupAppend [] s) fwd) bwd) last
    match afterBbook (splitSeps s) with
    | some k => if k = "" then base else dedupAppend base k
    | none => base

/-- `makeKeys` as written in the `GET /overview` handler
(`routes/userProfile.js` 230–241): same derivation, but the after-`bbook`
segment is added under the bounds check alone
(`if (idx >= 0 && idx + 1 < parts.length)`), with no truthiness guard —
the one point where the two call sites differ. -/
def makeKeysOverview (gid : String) : List String :=
  if gid = "" then []
  else
    let s := lowerStr (trimStr gid)
    let fwd := String.mk (replDoubleBack s.data)
    let bwd := String.mk (replSlashBack s.data)
    let last := lastSegment s
    let base := dedupAppend (dedupAppend (dedupAppend (dedupAppend [] s) fwd) bwd) last
    match afterBbook (splitSeps s) with
    | some k => dedupAppend base k
    | none => base

/-- `makeKeys` lifted to the nullable `group_id` column: JS
`if (!gid) return []` also fires for `null`. -/
def makeKeysOpt : Option String → List String
  | none => []
  | some g => makeKeys g

/-- The normalized form `String(gid).trim().toLowerCase()` that `makeKeys`
starts from. -/
def normGroup (gid : String) : String :=
  lowerStr (trimStr gid)

/-- Modelled from the spec: the "forward-slash variant" of §4.1 — the
normalized group string with every (single) backslash replaced by a forward
slash.  This is the spec-side definition used to compare against the
code's `replDoubleBack` behaviour. -/
def specForwardVariant (s : String) : String :=
  String.mk (s.data.map (fun c => if c = '\\' then '/' else c))

example : makeKeys "Bbook\\Standard\\USD" =
    ["bbook\\standard\\usd", "usd", "standard"] := by
  decide

example : makeKeys "a/b" = ["a/b", "a\\b", "b"] := by decide

example : makeKeys "a\\b" = ["a\\b", "b"] := by decide

example : makeKeys "a\\\\b" = ["a\\\\b", "a/b", "b"] := by decide

example : makeKeys "bbook\\\\x" = ["bbook\\\\x", "bbook/x", "x"] := by decide

example : makeKeysOverview "bbook\\\\x" = ["bbook\\\\x", "bbook/x", "x", ""] := by decide

theorem mem_dedupAppend (l : List String) (x y : String) :
    y ∈ dedupAppend l x ↔ y ∈ l ∨ y = x := by
  unfold dedupAppend
  split
  · rename_i h
    constructor
    · exact Or.inl
    · rintro (hy | rfl)
      · exact hy
      · exact h
  · simp

theorem map_id_of_no_backslash (l : List Char) (h : ∀ c ∈ l, c ≠ '\\') :
    l.map (fun c => if c = '\\' then '/' else c) = l := by
  induction l with
  | nil => rfl
  | cons c rest ih =>
    simp only [List.map_cons]
    rw [if_neg (h c (List.mem_cons_self c rest)), ih (fun c hc => h c (List.mem_cons_of_mem _ hc))]

/-- The two JS `makeKeys` call sites differ exactly on the *empty*
after-`bbook` segment: for the group `bbook\\x` (doubled backslash, so
the segment after `bbook` is empty) the overview variant's keyset
contains `""` while `IBWithdrawal`'s does not; on every non-empty key the
two variants agree — which is why the aggregation paths, whose lookups
discard a found empty key, cannot distinguish them. -/
theorem makeKeys_variants_agree :
    ("" ∉ makeKeys "bbook\\\\x") ∧ ("" ∈ makeKeysOverview "bbook\\\\x") ∧
    (∀ g k : String, k ≠ "" → (k ∈ makeKeysOverview g ↔ k ∈ makeKeys g)) := by
  refine ⟨by decide, by decide, ?_⟩
  intro g k hk
  by_cases hg : g = ""
  · subst hg
    simp [makeKeys, makeKeysOverview]
  · unfold makeKeys makeKeysOverview
    rw [if_neg hg, if_neg hg]
    rcases hb : afterBbook (splitSeps (lowerStr (trimStr g))) with _ | b
    · simp only [hb]
    · simp only [hb]
      by_cases hbe : b = ""
      · subst hbe
        rw [if_pos rfl]
        simp only [mem_dedupAppend]
        constructor
        · rintro (h | h)
          · exact h
          · exact absurd h hk
        · exact Or.inl
      · rw [if_neg hbe]

/-- C1 (counterexample).  For the raw group string `a\b` (single-backslash
separator) the spec-level forward-slash variant is `a/b`, yet the derived
candidate-key set is exactly `["a\b", "b"]` and does not contain `a/b`:
the code's `s.replace(/\\\\/g, '/')` only rewrites double-backslash pairs,
so the forward-slash variant is NOT present for every `g`. -/
theorem c1_forward_variant_counterexample :
    specForwardVariant (normGroup "a\\b") = "a/b" ∧
    "a/b" ∉ makeKeys "a\\b" ∧
    makeKeys "a\\b" = ["a\\b", "b"] := by
  refine ⟨by decide, by decide, by decide⟩

/-- C1 (amended).  For every non-empty raw broker group string `g`, the
derived candidate-key set equals the union of: the lowercased-and-trimmed
string `s`, the variant obtained by replacing each *double-backslash pair*
of `s` with a forward slash, the backslash variant of `s`, the last path
segment (with fallback to `s` itself), and, when some segment literally
equals `bbook` and the segment immediately following it is non-empty
(the `if (afterBbook)` truthiness guard), that following segment.  The
backslash variant is always present; the true forward-slash variant
(every single backslash replaced) is only guaranteed present when `s`
contains no backslash at all. -/
theorem c1_makeKeys_keyset (g : String) (hg : g ≠ "") :
    (∀ k, k ∈ makeKeys g ↔
      (k = normGroup g ∨
       k = String.mk (replDoubleBack (normGroup g).data) ∨
       k = String.mk (replSlashBack (normGroup g).data) ∨
       k = lastSegment (normGroup g) ∨
       (afterBbook (splitSeps (normGroup g)) = some k ∧ k ≠ ""))) ∧
    String.mk (replSlashBack (normGroup g).data) ∈ makeKeys g ∧
    ((∀ c ∈ (normGroup g).data, c ≠ '\\') →
      specForwardVariant (normGroup g) ∈ makeKeys g) := by
  have hmem : ∀ k, k ∈ makeKeys g ↔
      (k = normGroup g ∨
       k = String.mk (replDoubleBack (normGroup g).data) ∨
       k = String.mk (replSlashBack (normGroup g).data) ∨
       k = lastSegment (normGroup g) ∨
       (afterBbook (splitSeps (normGroup g)) = some k ∧ k ≠ "")) := by
    intro k
    unfold makeKeys
    rw [if_neg hg]
    simp only [normGroup]
    rcases hb : afterBbook (splitSeps (lowerStr (trimStr g))) with _ | b
    · simp only [mem_dedupAppend, List.not_mem_nil, false_or, hb]
      constructor
      · rintro (((h | h) | h) | h)
        · exact Or.inl h
        · exact Or.inr (Or.inl h)
        · exact Or.inr (Or.inr (Or.inl h))
        · exact Or.inr (Or.inr (Or.inr (Or.inl h)))
      · rintro (h | h | h | h | h)
        · exact Or.inl (Or.inl (Or.inl h))
        · exact Or.inl (Or.inl (Or.inr h))
        · exact Or.inl (Or.inr h)
        · exact Or.inr h
        · exact absurd h.1 (by simp)
    · by_cases hbe : b = ""
      · subst hbe
        simp only [hb]
        rw [if_pos trivial]
        simp only [mem_dedupAppend, List.not_mem_nil, false_or, Option.some.injEq]
        constructor
        · rintro (((h | h) | h) | h)
          · exact Or.inl h
          · exact Or.inr (Or.inl h)
          · exact Or.inr (Or.inr (Or.inl h))
          · exact Or.inr (Or.inr (Or.inr (Or.inl h)))
        · rintro (h | h | h | h | ⟨h1, h2⟩)
          · exact Or.inl (Or.inl (Or.inl h))
          · exact Or.inl (Or.inl (Or.inr h))
          · exact Or.inl (Or.inr h)
          · exact Or.inr h
          · exact absurd h1.symm h2
      · simp only [hb]
        rw [if_neg hbe]
        simp only [mem_dedupAppend, List.not_mem_nil, false_or, Option.some.injEq]
        constructor
        · rintro ((((h | h) | h) | h) | h)
          · exact Or.inl h
          · exact Or.inr (Or.inl h)
          · exact Or.inr (Or.inr (Or.inl h))
          · exact Or.inr (Or.inr (Or.inr (Or.inl h)))
          · subst h
            exact Or.inr (Or.inr (Or.inr (Or.inr ⟨rfl, hbe⟩)))
        · rintro (h | h | h | h | ⟨h1, _⟩)
          · exact Or.inl (Or.inl (Or.inl (Or.inl h)))
          · exact Or.inl (Or.inl (Or.inl (Or.inr h)))
          · exact Or.inl (Or.inl (Or.inr h))
          · exact Or.inl (Or.inr h)
          · exact Or.inr h1.symm
  refine ⟨hmem, ?_, ?_⟩
  · exact (hmem _).2 (Or.inr (Or.inr (Or.inl rfl)))
  · intro hnb
    have : specForwardVariant (normGroup g) = normGroup g := by
      unfold specForwardVariant
      rw [map_id_of_no_backslash _ hnb]
    rw [this]
    exact (hmem _).2 (Or.inl rfl)

/-- C1 witness: the amended key-set characterization instantiated at the
concrete slash-separated group `Bbook/Standard`. -/
theorem c1_makeKeys_witness :
    ("Bbook/Standard" : String) ≠ "" ∧
    specForwardVariant (normGroup "Bbook/Standard") ∈ makeKeys "Bbook/Standard" :=
  ⟨by decide, (c1_makeKeys_keyset "Bbook/Standard" (by decide)).2.2 (by decide)⟩

/-- A raw trade item from the broker's trade-history endpoint, after the
defensive JS coercions (`String(x ?? '')`, `Number(x || 0)`) applied by the
ingestion engine; a missing or non-numeric field coerces to `""`/`0`. -/
structure RawTrade where
  orderId : String
  symbol : String
  orderType : String
  volume : ℚ
  openPrice : ℚ
  closePrice : ℚ
  profit : ℚ
  takeProfit : ℚ
  stopLoss : ℚ
  deriving DecidableEq, Repr

/-- One value of the commission map built by `autoSyncTrades` in
`server.js`: `{ usdPerLot, spreadPercentage }`. -/
structure CommissionRule where
  usdPerLot : ℚ
  spreadPercentage : ℚ
  deriving DecidableEq, Repr

/-- JS object property assignment `m[k] = v` on a string-keyed object:
overwrite in place when the key exists, otherwise append. -/
def objSet {α : Type} (m : List (String × α)) (k : String) (v : α) : List (String × α) :=
  match m with
  | [] => [(k, v)]
  | (k', v') :: rest => if k' = k then (k, v) :: rest else (k', v') :: objSet rest k v

/-- JS object property read `m[k]` (as `Option`). -/
def objGet {α : Type} (m : List (String × α)) (k : String) : Option α :=
  match m with
  | [] => none
  | (k', v') :: rest => if k' = k then some v' else objGet rest k

/-- One row of the `ib_trade_history` table (the ledger).  `synced_at` is
an abstract integer timestamp; `created_at`/`updated_at` are not modelled
(no claim mentions them). -/
structure LedgerRow where
  id : String
  orderId : String
  accountId : String
  userId : Option String
  ibRequestId : Option Int
  symbol : String
  orderType : String
  volumeLots : ℚ
  openPrice : Option ℚ
  closePrice : Option ℚ
  profit : Option ℚ
  ibCommission : ℚ
  takeProfit : Option ℚ
  stopLoss : Option ℚ
  groupId : Option String
  syncedAt : Int
  deriving DecidableEq, Repr

/-- The non-batch arguments of `IBTradeHistory.upsertTrades(trades, {...})`. -/
structure UpsertParams where
  accountId : String
  userId : Option String
  ibRequestId : Option Int
  commissionMap : List (String × CommissionRule)
  groupId : Option String
  deriving DecidableEq, Repr

/-- The usd-per-lot resolution at the top of `upsertTrades`:
`if (groupId && commissionMap[groupId.toLowerCase()]) ... else if
(commissionMap['*']) ... else 0`.  Note: an exact lookup of the lowercased
group string — no candidate-key derivation. -/
def resolveUsdPerLot (m : List (String × CommissionRule)) (g? : Option String) : ℚ :=
  match g? with
  | some g =>
    if g = "" then (match objGet m "*" with | some r => r.usdPerLot | none => 0)
    else
      match objGet m (lowerStr g) with
      | some r => r.usdPerLot
      | none => match objGet m "*" with | some r => r.usdPerLot | none => 0
  | none => match objGet m "*" with | some r => r.usdPerLot | none => 0

/-- The admission filter of `upsertTrades` (lines 291–323): non-empty
order id, non-empty trimmed symbol, lowercased-trimmed order type in
{buy, sell}, and non-zero close price, open price and volume. -/
def tradeAdmitted (t : RawTrade) : Bool :=
  t.orderId ≠ "" &&
  trimStr t.symbol ≠ "" &&
  (trimStr (lowerStr t.orderType) = "buy" || trimStr (lowerStr t.orderType) = "sell") &&
  t.closePrice ≠ 0 &&
  t.openPrice ≠ 0 &&
  t.volume ≠ 0

/-- Volume normalization: `volume < 0.1 ? volume * 1000 : volume`. -/
def volLots (v : ℚ) : ℚ :=
  if v < 1/10 then v * 1000 else v

/-- The row that one admitted raw trade inserts (the VALUES list of the
upsert statement in `upsertTrades`). -/
def mkRow (p : UpsertParams) (now : Int) (t : RawTrade) : LedgerRow :=
  { id := p.accountId ++ "-" ++ t.orderId
    orderId := t.orderId
    accountId := p.accountId
    userId := p.userId
    ibRequestId := p.ibRequestId
    symbol := trimStr t.symbol
    orderType := trimStr (lowerStr t.orderType)
    volumeLots := volLots t.volume
    openPrice := some t.openPrice
    closePrice := some t.closePrice
    profit := some t.profit
    ibCommission := volLots t.volume * resolveUsdPerLot p.commissionMap p.groupId
    takeProfit := some t.takeProfit
    stopLoss := some t.stopLoss
    groupId := p.groupId
    syncedAt := now }

/-- `ON CONFLICT (order_id) DO UPDATE` of `upsertTrades`: the mutable
fields come from the excluded (new) row; `group_id` is
`COALESCE(EXCLUDED.group_id, old.group_id)`; every other column keeps its
old value. -/
def updateRow (old new : LedgerRow) : LedgerRow :=
  { old with
    volumeLots := new.volumeLots
    closePrice := new.closePrice
    profit := new.profit
    ibCommission := new.ibCommission
    groupId := (match new.groupId with | some g => some g | none => old.groupId)
    syncedAt := new.syncedAt }

/-- One upsert against the table: insert when no row carries the order id,
otherwise update every row carrying it (the unique key guarantees there is
at most one in a well-formed table). -/
def upsertOne (db : List LedgerRow) (new : LedgerRow) : List LedgerRow :=
  if db.any (fun r => r.orderId = new.orderId) then
    db.map (fun r => if r.orderId = new.orderId then updateRow r new else r)
  else db ++ [new]

/-- One loop iteration of `upsertTrades`: silently drop the item unless it
passes admission, otherwise upsert its row. -/
def upsertStep (p : UpsertParams) (now : Int) (db : List LedgerRow) (t : RawTrade) : List LedgerRow :=
  if tradeAdmitted t then upsertOne db (mkRow p now t) else db

/-- `IBTradeHistory.upsertTrades`: fold the admission-filter-then-upsert
step over the raw batch. -/
def upsertTrades (db : List LedgerRow) (ts : List RawTrade) (p : UpsertParams) (now : Int) :
    List LedgerRow :=
  ts.foldl (upsertStep p now) db

/-- Sum of a rational-valued projection over a list. -/
def sumBy {α : Type} (l : List α) (f : α → ℚ) : ℚ :=
  (l.map f).sum

/-- Eligibility filter of `IBTradeHistory.getTradeStats`:
`ib_request_id = $1 AND close_price IS NOT NULL AND close_price != 0 AND
profit != 0` plus the optional account filter.  (SQL three-valued logic: a
NULL `profit` fails `profit != 0`.) -/
def statsEligible (ibId : Int) (acct? : Option String) (r : LedgerRow) : Bool :=
  r.ibRequestId = some ibId &&
  (match r.closePrice with | some c => c ≠ 0 | none => false) &&
  (match r.profit with | some pr => pr ≠ 0 | none => false) &&
  (match acct? with | some a => r.accountId = a | none => true)

/-- Result shape of `getTradeStats`. -/
structure TradeStats where
  totalTrades : Nat
  totalLots : ℚ
  totalProfit : ℚ
  totalIbCommission : ℚ
  deriving DecidableEq, Repr

/-- `IBTradeHistory.getTradeStats`: COUNT/SUM aggregates over the eligible
rows. -/
def getTradeStats (db : List LedgerRow) (ibId : Int) (acct? : Option String) : TradeStats :=
  let rows := db.filter (statsEligible ibId acct?)
  { totalTrades := rows.length
    totalLots := sumBy rows (·.volumeLots)
    totalProfit := sumBy rows (fun r => r.profit.getD 0)
    totalIbCommission := sumBy rows (·.ibCommission) }

theorem tradeAdmitted_iff (t : RawTrade) :
    tradeAdmitted t = true ↔
      (t.orderId ≠ "" ∧ trimStr t.symbol ≠ "" ∧
       (trimStr (lowerStr t.orderType) = "buy" ∨ trimStr (lowerStr t.orderType) = "sell") ∧
       t.closePrice ≠ 0 ∧ t.openPrice ≠ 0 ∧ t.volume ≠ 0) := by
  simp [tradeAdmitted, and_assoc]

theorem upsertTrades_single (t : RawTrade) (p : UpsertParams) (now : Int) (db : List LedgerRow) :
    upsertTrades db [t] p now = if tradeAdmitted t then upsertOne db (mkRow p now t) else db := rfl

theorem any_eq_false_orderId (db : List LedgerRow) (o : String)
    (h : db.any (fun r => r.orderId = o) = false) : ∀ r ∈ db, r.orderId ≠ o := by
  intro r hr
  have := List.any_eq_false.mp h r hr
  simpa using this

/-- C2.  (a) A raw trade item yields a ledger row iff its order id and
trimmed symbol are non-empty, its lowercased-trimmed order type is buy or
sell, and its close price, open price and volume are all non-zero;
(b) a ledger row contributes to the `getTradeStats` aggregation iff its
close price and profit are present and non-zero (plus the id/account
scoping); (c) an admitted trade with zero profit is stored in the ledger
but contributes nothing to any stat aggregate. -/
theorem c2_admission_and_aggregation :
    (∀ (t : RawTrade) (p : UpsertParams) (now : Int),
       upsertTrades [] [t] p now ≠ [] ↔
         (t.orderId ≠ "" ∧ trimStr t.symbol ≠ "" ∧
          (trimStr (lowerStr t.orderType) = "buy" ∨ trimStr (lowerStr t.orderType) = "sell") ∧
          t.closePrice ≠ 0 ∧ t.openPrice ≠ 0 ∧ t.volume ≠ 0)) ∧
    (∀ (ibId : Int) (acct? : Option String) (r : LedgerRow),
       statsEligible ibId acct? r = true ↔
         (r.ibRequestId = some ibId ∧ (∃ c, r.closePrice = some c ∧ c ≠ 0) ∧
          (∃ q, r.profit = some q ∧ q ≠ 0) ∧ (∀ a, acct? = some a → r.accountId = a))) ∧
    (∀ (t : RawTrade) (p : UpsertParams) (now : Int) (ibId : Int),
       tradeAdmitted t = true → t.profit = 0 →
       (upsertTrades [] [t] p now).length = 1 ∧
       getTradeStats (upsertTrades [] [t] p now) ibId none = ⟨0, 0, 0, 0⟩) := by
  refine ⟨?_, ?_, ?_⟩
  · intro t p now
    rw [upsertTrades_single, ← tradeAdmitted_iff]
    rcases h : tradeAdmitted t with _ | _
    · simp [h]
    · simp [h, upsertOne]
  · intro ibId acct? r
    unfold statsEligible
    rcases r with ⟨_, _, _, _, rib, _, _, _, _, rcp, rpr, _, _, _, _, _⟩
    simp only [Bool.and_eq_true, decide_eq_true_eq]
    constructor
    · rintro ⟨⟨⟨h1, h2⟩, h3⟩, h4⟩
      refine ⟨h1, ?_, ?_, ?_⟩
      · rcases rcp with _ | c
        · simp at h2
        · exact ⟨c, rfl, by simpa using h2⟩
      · rcases rpr with _ | q
        · simp at h3
        · exact ⟨q, rfl, by simpa using h3⟩
      · intro a ha
        rw [ha] at h4
        simpa using h4
    · rintro ⟨h1, ⟨c, hc, hc0⟩, ⟨q, hq, hq0⟩, h4⟩
      subst hc
      subst hq
      refine ⟨⟨⟨h1, by simpa using hc0⟩, by simpa using hq0⟩, ?_⟩
      rcases acct? with _ | a
      · simp
      · simpa using h4 a rfl
  · intro t p now ibId hadm hprofit
    rw [upsertTrades_single, if_pos hadm]
    have hone : upsertOne [] (mkRow p now t) = [mkRow p now t] := by
      simp [upsertOne]
    rw [hone]
    refine ⟨rfl, ?_⟩
    have : statsEligible ibId none (mkRow p now t) = false := by
      unfold statsEligible mkRow
      simp [hprofit]
    simp [getTradeStats, this, sumBy]

/-- C2 witness: a concrete zero-profit buy trade with valid prices is
stored (one ledger row) and excluded from the stats aggregate. -/
theorem c2_admission_witness :
    tradeAdmitted ⟨"101", "EURUSD", "buy", 1, 1, (12345 : ℚ)/10000, 0, 0, 0⟩ = true ∧
    ((0 : ℚ) = 0) ∧
    (upsertTrades [] [⟨"101", "EURUSD", "buy", 1, 1, (12345 : ℚ)/10000, 0, 0, 0⟩]
        ⟨"8001", none, some 7, [], none⟩ 0).length = 1 ∧
    getTradeStats (upsertTrades [] [⟨"101", "EURUSD", "buy", 1, 1, (12345 : ℚ)/10000, 0, 0, 0⟩]
        ⟨"8001", none, some 7, [], none⟩ 0) 7 none = ⟨0, 0, 0, 0⟩ :=
  ⟨by decide, rfl,
   c2_admission_and_aggregation.2.2 ⟨"101", "EURUSD", "buy", 1, 1, (12345 : ℚ)/10000, 0, 0, 0⟩
     ⟨"8001", none, some 7, [], none⟩ 0 7 (by decide) rfl⟩

/-- C4.  Every row stored or updated for an admitted raw trade carries
`volume_lots = v*1000` when the raw volume `v` is below `0.1`, and `v`
otherwise; in particular the spec scenario: raw volume `0.05` with
`usdPerLot = 15` stores `volume_lots = 50` and `ib_commission = 750`. -/
theorem c4_volume_normalization :
    (∀ (t : RawTrade) (p : UpsertParams) (now : Int) (db : List LedgerRow),
       tradeAdmitted t = true →
       ∀ r ∈ upsertTrades db [t] p now, r.orderId = t.orderId →
         r.volumeLots = (if t.volume < 1/10 then t.volume * 1000 else t.volume)) ∧
    ((upsertTrades [] [⟨"55", "XAUUSD", "sell", 1/20, 1, 2, 3, 0, 0⟩]
        ⟨"9001", none, some 3, [("*", ⟨15, 0⟩)], none⟩ 0).map
        (fun r => (r.volumeLots, r.ibCommission)) = [(50, 750)]) := by
  constructor
  · intro t p now db hadm r hr hro
    rw [upsertTrades_single, if_pos hadm] at hr
    unfold upsertOne at hr
    split at hr
    · rcases List.mem_map.mp hr with ⟨r₀, hr₀, hite⟩
      by_cases h0 : r₀.orderId = (mkRow p now t).orderId
      · rw [if_pos h0] at hite
        rw [← hite]
        rfl
      · rw [if_neg h0] at hite
        rw [← hite] at hro
        exact absurd hro h0
    · rename_i hany
      rcases List.mem_append.mp hr with hin | hnew
      · exact absurd hro (any_eq_false_orderId db _ (Bool.not_eq_true _ ▸ (by simpa using hany)) r hin)
      · rw [List.mem_singleton.mp hnew]
        rfl
  · decide

/-- C4 witness: the general statement applied to the `0.05`-lot scenario
trade. -/
theorem c4_volume_witness :
    tradeAdmitted ⟨"55", "XAUUSD", "sell", 1/20, 1, 2, 3, 0, 0⟩ = true ∧
    ∀ r ∈ upsertTrades [] [⟨"55", "XAUUSD", "sell", 1/20, 1, 2, 3, 0, 0⟩]
        ⟨"9001", none, some 3, [("*", ⟨15, 0⟩)], none⟩ 0,
      r.orderId = "55" → r.volumeLots = (if (1/20 : ℚ) < 1/10 then (1/20) * 1000 else 1/20) :=
  ⟨by decide,
   fun r hr hro =>
     c4_volume_normalization.1 ⟨"55", "XAUUSD", "sell", 1/20, 1, 2, 3, 0, 0⟩
       ⟨"9001", none, some 3, [("*", ⟨15, 0⟩)], none⟩ 0 [] (by decide) r hr hro⟩

/-- The order ids stored in the ledger, in row order. -/
def orderIds (db : List LedgerRow) : List String :=
  db.map (·.orderId)

/-- The `order_id TEXT NOT NULL UNIQUE` constraint of `ib_trade_history`. -/
def uniqueOrderIds (db : List LedgerRow) : Prop :=
  (orderIds db).Nodup

theorem orderId_updateRow (old new : LedgerRow) :
    (updateRow old new).orderId = old.orderId := rfl

theorem orderIds_upsertOne_update (db : List LedgerRow) (new : LedgerRow)
    (h : db.any (fun r => r.orderId = new.orderId) = true) :
    orderIds (upsertOne db new) = orderIds db := by
  unfold upsertOne orderIds
  rw [if_pos h, List.map_map]
  apply List.map_congr_left
  intro r _
  by_cases hc : r.orderId = new.orderId <;> simp [hc, updateRow]

theorem unique_upsertOne (db : List LedgerRow) (new : LedgerRow)
    (h : uniqueOrderIds db) : uniqueOrderIds (upsertOne db new) := by
  rcases hany : db.any (fun r => r.orderId = new.orderId) with _ | _
  · unfold upsertOne
    rw [if_neg (by simp [hany])]
    unfold uniqueOrderIds orderIds at h ⊢
    rw [List.map_append]
    rw [List.nodup_append]
    refine ⟨h, List.nodup_singleton _, ?_⟩
    intro a ha hb
    rcases List.mem_map.mp ha with ⟨r, hr, hro⟩
    have := any_eq_false_orderId db new.orderId hany r hr
    simp only [List.map_cons, List.map_nil, List.mem_singleton] at hb
    exact this (hro.trans hb)
  · unfold uniqueOrderIds
    rw [orderIds_upsertOne_update db new hany]
    exact h

theorem unique_upsertTrades (ts : List RawTrade) (p : UpsertParams) (now : Int) :
    ∀ db : List LedgerRow, uniqueOrderIds db → uniqueOrderIds (upsertTrades db ts p now) := by
  induction ts with
  | nil => intro db h; exact h
  | cons t rest ih =>
    intro db h
    show uniqueOrderIds (upsertTrades (upsertStep p now db t) rest p now)
    apply ih
    unfold upsertStep
    split
    · exact unique_upsertOne db _ h
    · exact h

theorem exists_orderId_upsertOne (db : List LedgerRow) (new : LedgerRow) (o : String) :
    (∃ r ∈ upsertOne db new, r.orderId = o) ↔
      ((∃ r ∈ db, r.orderId = o) ∨ o = new.orderId) := by
  unfold upsertOne
  by_cases hany : (db.any (fun r => r.orderId = new.orderId)) = true
  case neg =>
    have hany' : db.any (fun r => r.orderId = new.orderId) = false := by
      simpa using hany
    rw [if_neg hany]
    constructor
    · rintro ⟨r, hr, hro⟩
      rcases List.mem_append.mp hr with hin | hnew
      · exact Or.inl ⟨r, hin, hro⟩
      · rw [List.mem_singleton.mp hnew] at hro
        exact Or.inr hro.symm
    · rintro (⟨r, hr, hro⟩ | rfl)
      · exact ⟨r, List.mem_append.mpr (Or.inl hr), hro⟩
      · exact ⟨new, List.mem_append.mpr (Or.inr (List.mem_singleton.mpr rfl)), rfl⟩
  · rw [if_pos hany]
    have hmap : ∀ r : LedgerRow,
        ((if r.orderId = new.orderId then updateRow r new else r).orderId) = r.orderId := by
      intro r
      by_cases hc : r.orderId = new.orderId <;> simp [hc, updateRow]
    constructor
    · rintro ⟨r, hr, hro⟩
      rcases List.mem_map.mp hr with ⟨r₀, hr₀, hite⟩
      refine Or.inl ⟨r₀, hr₀, ?_⟩
      rw [← hmap r₀, hite, hro]
    · rintro (⟨r, hr, hro⟩ | rfl)
      · exact ⟨_, List.mem_map.mpr ⟨r, hr, rfl⟩, (hmap r).trans hro⟩
      · rcases List.any_eq_true.mp hany with ⟨r, hr, hro⟩
        simp only [decide_eq_true_eq] at hro
        exact ⟨_, List.mem_map.mpr ⟨r, hr, rfl⟩, (hmap r).trans hro⟩

theorem exists_orderId_upsertTrades (ts : List RawTrade) (p : UpsertParams) (now : Int) :
    ∀ (db : List LedgerRow) (o : String),
      (∃ r ∈ upsertTrades db ts p now, r.orderId = o) ↔
        ((∃ r ∈ db, r.orderId = o) ∨ ∃ t ∈ ts, tradeAdmitted t = true ∧ t.orderId = o) := by
  induction ts with
  | nil => intro db o; simp [upsertTrades]
  | cons t rest ih =>
    intro db o
    show (∃ r ∈ upsertTrades (upsertStep p now db t) rest p now, r.orderId = o) ↔ _
    rw [ih]
    unfold upsertStep
    by_cases hadm : tradeAdmitted t = true
    case neg =>
      rw [if_neg hadm]
      constructor
      · rintro (h | h)
        · exact Or.inl h
        · exact Or.inr (by rcases h with ⟨t', ht', h⟩; exact ⟨t', List.mem_cons_of_mem _ ht', h⟩)
      · rintro (h | ⟨t', ht', hadm', hor⟩)
        · exact Or.inl h
        · rcases List.mem_cons.mp ht' with rfl | hmem
          · exact absurd hadm' hadm
          · exact Or.inr ⟨t', hmem, hadm', hor⟩
    · rw [if_pos hadm]
      rw [exists_orderId_upsertOne]
      constructor
      · rintro ((h | h) | h)
        · exact Or.inl h
        · exact Or.inr ⟨t, List.mem_cons_self t rest, hadm, h.symm⟩
        · rcases h with ⟨t', ht', h1, h2⟩
          exact Or.inr ⟨t', List.mem_cons_of_mem _ ht', h1, h2⟩
      · rintro (h | ⟨t', ht', h1, h2⟩)
        · exact Or.inl (Or.inl h)
        · rcases List.mem_cons.mp ht' with rfl | hmem
          · exact Or.inl (Or.inr h2.symm)
          · exact Or.inr ⟨t', hmem, h1, h2⟩

/-- Property preservation: an upsert step for a trade that is dropped or
carries a different order id does not disturb the rows holding order id
`o`. -/
theorem pres_upsertStep (Φ : LedgerRow → Prop) (p : UpsertParams) (now : Int)
    (db : List LedgerRow) (t' : RawTrade) (o : String)
    (hne : tradeAdmitted t' = true → t'.orderId ≠ o)
    (hdb : ∀ r ∈ db, r.orderId = o → Φ r) :
    ∀ r ∈ upsertStep p now db t', r.orderId = o → Φ r := by
  unfold upsertStep
  by_cases hadm : tradeAdmitted t' = true
  case neg =>
    rw [if_neg hadm]
    exact hdb
  · rw [if_pos hadm]
    have hno : t'.orderId ≠ o := hne hadm
    unfold upsertOne
    split
    · intro r hr hro
      rcases List.mem_map.mp hr with ⟨r₀, hr₀, hite⟩
      by_cases hc : r₀.orderId = (mkRow p now t').orderId
      · rw [if_pos hc] at hite
        rw [← hite, orderId_updateRow] at hro
        rw [hc] at hro
        exact absurd hro hno
      · rw [if_neg hc] at hite
        rw [← hite] at hro ⊢
        exact hdb r₀ hr₀ hro
    · intro r hr hro
      rcases List.mem_append.mp hr with hin | hnew
      · exact hdb r hin hro
      · rw [List.mem_singleton.mp hnew] at hro
        exact absurd hro hno

theorem pres_upsertTrades (Φ : LedgerRow → Prop) (p : UpsertParams) (now : Int)
    (l₂ : List RawTrade) (o : String)
    (hl₂ : ∀ t' ∈ l₂, tradeAdmitted t' = true → t'.orderId ≠ o) :
    ∀ db : List LedgerRow, (∀ r ∈ db, r.orderId = o → Φ r) →
      ∀ r ∈ upsertTrades db l₂ p now, r.orderId = o → Φ r := by
  induction l₂ with
  | nil => intro db hdb; simpa [upsertTrades] using hdb
  | cons t' rest ih =>
    intro db hdb
    show ∀ r ∈ upsertTrades (upsertStep p now db t') rest p now, r.orderId = o → Φ r
    apply ih (fun t h => hl₂ t (List.mem_cons_of_mem _ h))
    exact pres_upsertStep Φ p now db t' o (hl₂ t' (List.mem_cons_self t' rest)) hdb

/-- After upserting one admitted trade, every row holding its order id has
the freshly computed mutable fields. -/
theorem mut_upsertStep (p : UpsertParams) (now : Int) (db : List LedgerRow) (t : RawTrade)
    (hadm : tradeAdmitted t = true) :
    ∀ r ∈ upsertStep p now db t, r.orderId = t.orderId →
      r.volumeLots = volLots t.volume ∧ r.closePrice = some t.closePrice ∧
      r.profit = some t.profit ∧
      r.ibCommission = volLots t.volume * resolveUsdPerLot p.commissionMap p.groupId := by
  unfold upsertStep
  rw [if_pos hadm]
  unfold upsertOne
  split
  · intro r hr hro
    rcases List.mem_map.mp hr with ⟨r₀, hr₀, hite⟩
    by_cases hc : r₀.orderId = (mkRow p now t).orderId
    · rw [if_pos hc] at hite
      rw [← hite]
      exact ⟨rfl, rfl, rfl, rfl⟩
    · rw [if_neg hc] at hite
      rw [← hite] at hro
      exact absurd hro hc
  · rename_i hany
    intro r hr hro
    rcases List.mem_append.mp hr with hin | hnew
    · exact absurd hro (any_eq_false_orderId db _ (by simpa using hany) r hin)
    · rw [List.mem_singleton.mp hnew]
      exact ⟨rfl, rfl, rfl, rfl⟩

theorem upsertTrades_append_cons (db : List LedgerRow) (l₁ : List RawTrade) (t : RawTrade)
    (l₂ : List RawTrade) (p : UpsertParams) (now : Int) :
    upsertTrades db (l₁ ++ t :: l₂) p now =
      upsertTrades (upsertStep p now (upsertTrades db l₁ p now) t) l₂ p now := by
  unfold upsertTrades
  rw [List.foldl_append, List.foldl_cons]

/-- Mutable fields after one whole pass: rows holding the order id of the
*last* admitted occurrence of that id in the batch carry exactly its
values. -/
theorem mut_upsertTrades (db : List LedgerRow) (ts : List RawTrade) (p : UpsertParams)
    (now : Int) (l₁ : List RawTrade) (t : RawTrade) (l₂ : List RawTrade)
    (hts : ts = l₁ ++ t :: l₂) (hadm : tradeAdmitted t = true)
    (hlast : ∀ t' ∈ l₂, tradeAdmitted t' = true → t'.orderId ≠ t.orderId) :
    ∀ r ∈ upsertTrades db ts p now, r.orderId = t.orderId →
      r.volumeLots = volLots t.volume ∧ r.closePrice = some t.closePrice ∧
      r.profit = some t.profit ∧
      r.ibCommission = volLots t.volume * resolveUsdPerLot p.commissionMap p.groupId := by
  rw [hts, upsertTrades_append_cons]
  exact pres_upsertTrades _ p now l₂ t.orderId hlast _
    (mut_upsertStep p now (upsertTrades db l₁ p now) t hadm)

/-- C3.  Re-ingesting a batch N ≥ 1 times (starting from a ledger whose
order ids are unique) leaves order ids unique, leaves exactly the order
ids of the original ledger plus those of the admitted trades of the batch
(so one row per distinct admitted OrderId), and every row holding the
order id of the last admitted occurrence of that id in the batch carries
exactly that occurrence's computed mutable fields
(`volume_lots`, `close_price`, `profit`, `ib_commission`).  The spec's
re-sync scenario (profit 10 then profit 12 for the same order id) yields a
single row with profit 12, and `getTradeStats` reflects 12, not 22. -/
theorem c3_idempotent_reingestion :
    (∀ (db : List LedgerRow) (ts : List RawTrade) (p : UpsertParams) (now : Int) (N : ℕ),
      1 ≤ N → uniqueOrderIds db →
      uniqueOrderIds ((fun d => upsertTrades d ts p now)^[N] db) ∧
      (∀ o : String,
        (∃ r ∈ (fun d => upsertTrades d ts p now)^[N] db, r.orderId = o) ↔
          ((∃ r ∈ db, r.orderId = o) ∨ ∃ t ∈ ts, tradeAdmitted t = true ∧ t.orderId = o)) ∧
      (∀ (l₁ : List RawTrade) (t : RawTrade) (l₂ : List RawTrade),
        ts = l₁ ++ t :: l₂ → tradeAdmitted t = true →
        (∀ t' ∈ l₂, tradeAdmitted t' = true → t'.orderId ≠ t.orderId) →
        ∀ r ∈ (fun d => upsertTrades d ts p now)^[N] db, r.orderId = t.orderId →
          r.volumeLots = volLots t.volume ∧ r.closePrice = some t.closePrice ∧
          r.profit = some t.profit ∧
          r.ibCommission = volLots t.volume * resolveUsdPerLot p.commissionMap p.groupId)) ∧
    ((upsertTrades
        (upsertTrades [] [⟨"77", "EURUSD", "buy", 1, 1, 2, 10, 0, 0⟩]
          ⟨"8001", none, some 7, [], none⟩ 0)
        [⟨"77", "EURUSD", "buy", 1, 1, 2, 12, 0, 0⟩]
        ⟨"8001", none, some 7, [], none⟩ 1).map (fun r => (r.orderId, r.profit)) =
        [("77", some 12)] ∧
     (getTradeStats
        (upsertTrades
          (upsertTrades [] [⟨"77", "EURUSD", "buy", 1, 1, 2, 10, 0, 0⟩]
            ⟨"8001", none, some 7, [], none⟩ 0)
          [⟨"77", "EURUSD", "buy", 1, 1, 2, 12, 0, 0⟩]
          ⟨"8001", none, some 7, [], none⟩ 1) 7 none).totalProfit = 12) := by
  constructor
  · intro db ts p now N hN hdb
    set f := fun d => upsertTrades d ts p now with hf
    obtain ⟨m, rfl⟩ : ∃ m, N = m + 1 := ⟨N - 1, (Nat.succ_pred_eq_of_pos hN).symm⟩
    have aux1 : ∀ (k : ℕ) (d : List LedgerRow), uniqueOrderIds d → uniqueOrderIds (f^[k] d) := by
      intro k
      induction k with
      | zero => intro d hd; exact hd
      | succ k ihk =>
        intro d hd
        rw [Function.iterate_succ_apply]
        exact ihk (f d) (unique_upsertTrades ts p now d hd)
    have aux2 : ∀ (k : ℕ) (d : List LedgerRow) (o : String),
        (∃ r ∈ f^[k + 1] d, r.orderId = o) ↔
          ((∃ r ∈ d, r.orderId = o) ∨ ∃ t ∈ ts, tradeAdmitted t = true ∧ t.orderId = o) := by
      intro k
      induction k with
      | zero =>
        intro d o
        rw [Function.iterate_one]
        exact exists_orderId_upsertTrades ts p now d o
      | succ k ihk =>
        intro d o
        rw [Function.iterate_succ_apply]
        rw [ihk (f d) o]
        rw [exists_orderId_upsertTrades ts p now d o]
        rw [or_assoc, or_self]
    refine ⟨aux1 (m + 1) db hdb, fun o => aux2 m db o, ?_⟩
    intro l₁ t l₂ hts hadm hlast
    rw [Function.iterate_succ_apply']
    exact mut_upsertTrades (f^[m] db) ts p now l₁ t l₂ hts hadm hlast
  · exact ⟨by decide, by decide⟩

/-- C3 witness: three successive ingestions of a one-trade batch starting
from the empty ledger keep order ids unique, and the single resulting row
carries that trade's computed fields. -/
theorem c3_idempotent_witness :
    (1 : ℕ) ≤ 3 ∧ uniqueOrderIds ([] : List LedgerRow) ∧
    uniqueOrderIds
      ((fun d => upsertTrades d [⟨"77", "EURUSD", "buy", 1, 1, 2, 10, 0, 0⟩]
        ⟨"8001", none, some 7, [], none⟩ 0)^[3] []) :=
  ⟨by decide, by simp [uniqueOrderIds, orderIds],
   (c3_idempotent_reingestion.1 [] [⟨"77", "EURUSD", "buy", 1, 1, 2, 10, 0, 0⟩]
     ⟨"8001", none, some 7, [], none⟩ 0 3 (by decide)
     (by simp [uniqueOrderIds, orderIds])).1⟩

/-- One step of the `commissionMap` construction in `autoSyncTrades`
(`server.js`): skip falsy `group_id`, otherwise assign under the exact
lowercased group id. -/
def commissionMapStep (m : List (String × CommissionRule)) (row : Option String × ℚ × ℚ) :
    List (String × CommissionRule) :=
  match row.1 with
  | none => m
  | some gid => if gid = "" then m else objSet m (lowerStr gid) ⟨row.2.1, row.2.2⟩

/-- The `commissionMap` built by `autoSyncTrades` from the partner's
`ib_group_assignments` rows `(group_id, usd_per_lot,
spread_share_percentage)`; when no key was produced, a single `'*'`
wildcard entry built from the partner's legacy default rates is used. -/
def buildCommissionMap (rows : List (Option String × ℚ × ℚ)) (defUsd defSpread : ℚ) :
    List (String × CommissionRule) :=
  let m := rows.foldl commissionMapStep []
  if m = [] then [("*", ⟨defUsd, defSpread⟩)] else m

/-- Modelled from the spec: §4.2 step 5 resolves `usdPerLot` "by
normalizing the account's group and looking it up in `ruleMap`", i.e. by
deriving the group's candidate keys (§4.1) and taking the first key the
rule map contains; 0 when nothing matches.  This is the claim-side
resolution to compare with the code's `resolveUsdPerLot`. -/
def specResolveUsdPerLot (m : List (String × CommissionRule)) (g? : Option String) : ℚ :=
  match g? with
  | none => 0
  | some g =>
    match (makeKeys g).find? (fun k => (objGet m k).isSome) with
    | some k => (match objGet m k with | some r => r.usdPerLot | none => 0)
    | none => 0

/-- C6 (counterexample).  With the single assignment `group_id =
"standard"` (usd/lot 10) and an account whose resolved broker group is
`Bbook\Standard`, candidate-key resolution (as the claim states) yields
usd/lot 10, but the ingested row's stored commission is 0: `upsertTrades`
looks the group up by exact lowercased string only. -/
theorem c6_exact_match_counterexample :
    (upsertTrades [] [⟨"5", "EURUSD", "buy", 1, 1, 2, 3, 0, 0⟩]
        ⟨"1001", none, some 1, buildCommissionMap [(some "standard", 10, 0)] 0 0,
         some "Bbook\\Standard"⟩ 0).map (·.ibCommission) = [0] ∧
    specResolveUsdPerLot (buildCommissionMap [(some "standard", 10, 0)] 0 0)
      (some "Bbook\\Standard") = 10 ∧
    volLots 1 * specResolveUsdPerLot (buildCommissionMap [(some "standard", 10, 0)] 0 0)
      (some "Bbook\\Standard") = 10 ∧
    (0 : ℚ) ≠ 10 := by
  refine ⟨by decide, by decide, by decide, by decide⟩

theorem objGet_objSet {α : Type} (m : List (String × α)) (kk q : String) (v : α) :
    objGet (objSet m kk v) q = if q = kk then some v else objGet m q := by
  induction m with
  | nil =>
    by_cases h : q = kk
    · subst h
      simp [objSet, objGet]
    · have h2 : ¬ kk = q := fun hc => h hc.symm
      simp [objSet, objGet, h, h2]
  | cons e rest ih =>
    rcases e with ⟨k', v'⟩
    by_cases hk : k' = kk
    · subst hk
      by_cases h : q = k'
      · subst h
        simp [objSet, objGet]
      · have h2 : ¬ k' = q := fun hc => h hc.symm
        simp [objSet, objGet, h, h2]
    · by_cases h : k' = q
      · subst h
        have hq : ¬ k' = kk := hk
        simp [objSet, objGet, hk, hq]
      · simp only [objSet, if_neg hk, objGet, if_neg h]
        rw [ih]

theorem commissionMap_foldl_keys (rows : List (Option String × ℚ × ℚ)) :
    ∀ (acc : List (String × CommissionRule)) (k : String) (rule : CommissionRule),
      objGet (rows.foldl commissionMapStep acc) k = some rule →
      (objGet acc k).isSome = true ∨ ∃ row ∈ rows, ∃ g, row.1 = some g ∧ k = lowerStr g := by
  induction rows with
  | nil =>
    intro acc k rule h
    exact Or.inl (by rw [List.foldl_nil] at h; rw [h]; rfl)
  | cons row rest ih =>
    intro acc k rule h
    rw [List.foldl_cons] at h
    rcases ih (commissionMapStep acc row) k rule h with hsome | ⟨row', hrow', g, hg, hk⟩
    · rcases row with ⟨g?, u, s⟩
      rcases g? with _ | gid
      · exact Or.inl (by simpa [commissionMapStep] using hsome)
      · by_cases hemp : gid = ""
        · subst hemp
          exact Or.inl (by simpa [commissionMapStep] using hsome)
        · have hsome' : (objGet (objSet acc (lowerStr gid) ⟨u, s⟩) k).isSome = true := by
            simpa [commissionMapStep, hemp] using hsome
          rw [objGet_objSet] at hsome'
          by_cases hkey : k = lowerStr gid
          · exact Or.inr ⟨⟨some gid, u, s⟩, List.mem_cons_self _ rest, gid, rfl, hkey⟩
          · rw [if_neg hkey] at hsome'
            exact Or.inl hsome'
    · exact Or.inr ⟨row', List.mem_cons_of_mem _ hrow', g, hg, hk⟩

/-- C6 (amended).  The stored fixed commission of every ingested trade is
`volume_lots × usdPerLot`, where `usdPerLot` is resolved by an *exact*
lookup of the lowercased resolved group string in the commission map —
falling back to the `'*'` wildcard entry when present and to 0 otherwise;
no candidate-key derivation is applied at ingestion, and every
non-wildcard key of the map built by `autoSyncTrades` is the exact
lowercased `group_id` of one assignment row. -/
theorem c6_commission_resolution :
    (∀ (t : RawTrade) (p : UpsertParams) (now : Int) (db : List LedgerRow),
      tradeAdmitted t = true →
      ∀ r ∈ upsertTrades db [t] p now, r.orderId = t.orderId →
        r.ibCommission = volLots t.volume * resolveUsdPerLot p.commissionMap p.groupId) ∧
    (∀ (m : List (String × CommissionRule)) (g : String), g ≠ "" →
      (∀ rule, objGet m (lowerStr g) = some rule →
        resolveUsdPerLot m (some g) = rule.usdPerLot) ∧
      (objGet m (lowerStr g) = none → objGet m "*" = none →
        resolveUsdPerLot m (some g) = 0) ∧
      (∀ rule, objGet m (lowerStr g) = none → objGet m "*" = some rule →
        resolveUsdPerLot m (some g) = rule.usdPerLot)) ∧
    (∀ (rows : List (Option String × ℚ × ℚ)) (d₁ d₂ : ℚ) (k : String) (rule : CommissionRule),
      objGet (buildCommissionMap rows d₁ d₂) k = some rule →
      k = "*" ∨ ∃ row ∈ rows, ∃ g, row.1 = some g ∧ k = lowerStr g) := by
  refine ⟨?_, ?_, ?_⟩
  · intro t p now db hadm r hr hro
    have h := mut_upsertStep p now db t hadm r ?hr' hro
    · exact h.2.2.2
    · rw [upsertTrades_single, if_pos hadm] at hr
      show r ∈ upsertStep p now db t
      rw [upsertStep, if_pos hadm]
      exact hr
  · intro m g hg
    refine ⟨?_, ?_, ?_⟩
    · intro rule hrule
      simp only [resolveUsdPerLot]
      rw [if_neg hg, hrule]
    · intro h1 h2
      simp only [resolveUsdPerLot]
      rw [if_neg hg, h1, h2]
    · intro rule h1 h2
      simp only [resolveUsdPerLot]
      rw [if_neg hg, h1, h2]
  · intro rows d₁ d₂ k rule h
    unfold buildCommissionMap at h
    by_cases hemp : rows.foldl commissionMapStep [] = []
    · rw [if_pos hemp] at h
      unfold objGet at h
      by_cases hk : "*" = k
      · exact Or.inl hk.symm
      · rw [if_neg hk] at h
        cases h
    · rw [if_neg hemp] at h
      rcases commissionMap_foldl_keys rows [] k rule h with hsome | hex
      · cases hsome
      · exact Or.inr hex

/-- C6 witness: the amended resolution applied to a trade whose group
matches an assignment exactly (lowercased), yielding commission
`volume_lots × 10`. -/
theorem c6_commission_witness :
    tradeAdmitted ⟨"5", "EURUSD", "buy", 2, 1, 2, 3, 0, 0⟩ = true ∧
    ∀ r ∈ upsertTrades [] [⟨"5", "EURUSD", "buy", 2, 1, 2, 3, 0, 0⟩]
        ⟨"1001", none, some 1, [("standard", ⟨10, 0⟩)], some "Standard"⟩ 0,
      r.orderId = "5" →
        r.ibCommission =
          volLots 2 * resolveUsdPerLot [("standard", ⟨10, 0⟩)] (some "Standard") :=
  ⟨by decide, fun r hr h =>
    c6_commission_resolution.1 ⟨"5", "EURUSD", "buy", 2, 1, 2, 3, 0, 0⟩
      ⟨"1001", none, some 1, [("standard", ⟨10, 0⟩)], some "Standard"⟩ 0 [] (by decide) r hr h⟩

/-- Scan for an occurrence of `sub` at any position of the char list. -/
def containsAux (sub : List Char) : List Char → Bool
  | [] => List.isPrefixOf sub []
  | c :: rest => List.isPrefixOf sub (c :: rest) || containsAux sub rest

/-- JS `String.prototype.includes` (used for the `%demo%` heuristics):
`sub` occurs contiguously in `s`. -/
def containsStr (s sub : String) : Bool :=
  containsAux sub.data s.data

/-- One `ib_group_assignments` row as read by `IBWithdrawal.getSummary`:
`(ib_request_id, group_id, spread_share_percentage)` (the percentage
already coerced by `Number(x || 0)`). -/
structure AssignmentRow where
  ibRequestId : Int
  groupId : Option String
  pct : ℚ
  deriving DecidableEq, Repr

/-- One `ib_withdrawal_requests` row (the fields the summary reads). -/
structure WithdrawalRow where
  ibRequestId : Int
  amount : ℚ
  status : String
  deriving DecidableEq, Repr

/-- One `MT5Account` row (the columns the summary's allowed-accounts
resolution reads). -/
structure MT5AccountRow where
  userId : String
  accountId : String
  accountType : Option String
  package : Option String
  deriving DecidableEq, Repr

/-- The database state visible to `IBWithdrawal.getSummary`:
`ib_group_assignments`, `ib_trade_history`, `ib_withdrawal_requests`,
`ib_requests (id, email)`, `"User" (id, email)` and `"MT5Account"`. -/
structure SummaryDB where
  assignments : List AssignmentRow
  trades : List LedgerRow
  withdrawals : List WithdrawalRow
  ibRequests : List (Int × String)
  users : List (String × String)
  accounts : List MT5AccountRow
  deriving DecidableEq, Repr

/-- The live/real + non-demo-package account condition of the
allowed-accounts query: `(LOWER("accountType") IN ('live','real') OR
LOWER(COALESCE("accountType",'live')) IN ('live','real')) AND ("package"
IS NULL OR LOWER("package") NOT LIKE '%demo%')` under SQL three-valued
logic. -/
def accountAllowedLive (a : MT5AccountRow) : Bool :=
  ((match a.accountType with
    | some ty => lowerStr ty = "live" || lowerStr ty = "real"
    | none => false) ||
   (lowerStr (a.accountType.getD "live") = "live" ||
    lowerStr (a.accountType.getD "live") = "real")) &&
  (match a.package with
   | none => true
   | some pk => !(containsStr (lowerStr pk) "demo"))

/-- The allowed-account-ids resolution inside `getSummary`: partner email
from `ib_requests`, first matching `"User"` row, then the live non-demo
`MT5Account` ids. -/
def resolveAllowedAccounts (db : SummaryDB) (ibId : Int) : List String :=
  match db.ibRequests.find? (fun e => e.1 = ibId) with
  | none => []
  | some e =>
    match db.users.find? (fun u => u.2 = e.2) with
    | none => []
    | some u => (db.accounts.filter (fun a => a.userId = u.1 && accountAllowedLive a)).map (·.accountId)

/-- The `approvedMap` of `getSummary`: assignment rows of this partner
folded into a JS object, one entry per derived candidate key, holding the
spread-share percentage. -/
def approvedMapOf (assignments : List AssignmentRow) (ibId : Int) : List (String × ℚ) :=
  (assignments.filter (fun r => r.ibRequestId = ibId)).foldl
    (fun m r => (makeKeysOpt r.groupId).foldl (fun m' k => objSet m' k r.pct) m) []

/-- The WHERE clause of the trade aggregation in `getSummary`:
partner match, non-null non-zero close price, non-zero profit, optional
trailing `synced_at` window, `%demo%` group exclusion and (when any were
resolved) the allowed-account restriction. -/
def summaryTradeEligible (ibId : Int) (periodDays now : Int) (allowed : List String)
    (r : LedgerRow) : Bool :=
  r.ibRequestId = some ibId &&
  (match r.closePrice with | some c => c ≠ 0 | none => false) &&
  (match r.profit with | some q => q ≠ 0 | none => false) &&
  (if 0 < periodDays then now - periodDays * 86400 ≤ r.syncedAt else true) &&
  (match r.groupId with | none => true | some g => !(containsStr (lowerStr g) "demo")) &&
  (if allowed.isEmpty then true else allowed.contains r.accountId)

/-- `candidates.find((x) => approvedMap.hasOwnProperty(x))` followed by
`if (!k) continue`: the first derived key present in the map, discarded
when that key is the (falsy) empty string. -/
def ruleMatchPct (m : List (String × ℚ)) (g : Option String) : Option ℚ :=
  match (makeKeysOpt g).find? (fun k => (objGet m k).isSome) with
  | some k => if k = "" then none else objGet m k
  | none => none

/-- Result shape of `IBWithdrawal.getSummary`. -/
structure SummaryResult where
  totalEarned : ℚ
  totalPaid : ℚ
  pending : ℚ
  available : ℚ
  fixedEarned : ℚ
  spreadEarned : ℚ
  deriving DecidableEq, Repr

/-- `LOWER(status) IN ('paid','completed')`. -/
def statusPaid (w : WithdrawalRow) : Bool :=
  lowerStr w.status = "paid" || lowerStr w.status = "completed"

/-- Sum of paid/completed withdrawal amounts for the partner. -/
def sumPaid (db : SummaryDB) (ibId : Int) : ℚ :=
  sumBy (db.withdrawals.filter (fun w => w.ibRequestId = ibId && statusPaid w)) (·.amount)

/-- Sum of pending withdrawal amounts for the partner. -/
def sumPending (db : SummaryDB) (ibId : Int) : ℚ :=
  sumBy (db.withdrawals.filter (fun w => w.ibRequestId = ibId && lowerStr w.status = "pending"))
    (·.amount)

/-- The per-group accumulation loop of `getSummary`: for each group-id
bucket of the eligible trades, skip unless a derived key matches the
approved map, else accumulate the bucket's summed `ib_commission` into
`fixed` and its summed lots × pct/100 into `spread`. -/
def summaryEarnings (m : List (String × ℚ)) (eligRows : List LedgerRow) : ℚ × ℚ :=
  ((eligRows.map (·.groupId)).dedup).foldl
    (fun acc g =>
      match ruleMatchPct m g with
      | none => acc
      | some pct =>
        (acc.1 + sumBy (eligRows.filter (fun r => r.groupId = g)) (·.ibCommission),
         acc.2 + sumBy (eligRows.filter (fun r => r.groupId = g)) (·.volumeLots) * (pct / 100)))
    (0, 0)

/-- The `(fixed, spread)` pair computed by `getSummary`'s earnings phase:
`(0, 0)` when the partner has no assignment keys, otherwise the per-group
accumulation over the eligible trades. -/
def getSummaryEarnings (db : SummaryDB) (ibId : Int) (periodDays now : Int) : ℚ × ℚ :=
  if (approvedMapOf db.assignments ibId).isEmpty then (0, 0)
  else
    summaryEarnings (approvedMapOf db.assignments ibId)
      (db.trades.filter
        (summaryTradeEligible ibId periodDays now (resolveAllowedAccounts db ibId)))

/-- `IBWithdrawal.getSummary` (the successful try-branch): approved-group
earnings (zero when the partner has no assignment keys), then withdrawal
netting with the `Math.max(..., 0)` clamp. -/
def getSummary (db : SummaryDB) (ibId : Int) (periodDays now : Int) : SummaryResult :=
  { totalEarned := (getSummaryEarnings db ibId periodDays now).1 +
      (getSummaryEarnings db ibId periodDays now).2
    totalPaid := sumPaid db ibId
    pending := sumPending db ibId
    available := max ((getSummaryEarnings db ibId periodDays now).1 +
      (getSummaryEarnings db ibId periodDays now).2 - sumPaid db ibId - sumPending db ibId) 0
    fixedEarned := (getSummaryEarnings db ibId periodDays now).1
    spreadEarned := (getSummaryEarnings db ibId periodDays now).2 }

/-- The catch-branch of `getSummary`: `totalEarned` is the plain
`SUM(ib_commission)` over ALL of the partner's ledger rows — no group,
demo, eligibility, account or time filter — with `spreadEarned = 0` and
the same clamp. -/
def getSummaryFallback (db : SummaryDB) (ibId : Int) : SummaryResult :=
  { totalEarned := sumBy (db.trades.filter (fun r => r.ibRequestId = some ibId)) (·.ibCommission)
    totalPaid := sumPaid db ibId
    pending := sumPending db ibId
    available := max (sumBy (db.trades.filter (fun r => r.ibRequestId = some ibId))
      (·.ibCommission) - sumPaid db ibId - sumPending db ibId) 0
    fixedEarned := sumBy (db.trades.filter (fun r => r.ibRequestId = some ibId)) (·.ibCommission)
    spreadEarned := 0 }

/-- `getSummary` with its try/catch control flow: when the approved-groups
computation throws, the error is swallowed and the fallback answers. -/
def getSummaryRun (throws : Bool) (db : SummaryDB) (ibId : Int) (periodDays now : Int) :
    SummaryResult :=
  if throws then getSummaryFallback db ibId else getSummary db ibId periodDays now

theorem sumBy_congr {α : Type} (l : List α) (f g : α → ℚ) (h : ∀ x ∈ l, f x = g x) :
    sumBy l f = sumBy l g := by
  unfold sumBy
  rw [List.map_congr_left h]

theorem sumBy_add {α : Type} (l : List α) (f g : α → ℚ) :
    sumBy l (fun x => f x + g x) = sumBy l f + sumBy l g := by
  induction l with
  | nil => simp [sumBy]
  | cons x xs ih =>
    simp only [sumBy, List.map_cons, List.sum_cons] at ih ⊢
    rw [ih]
    ring

theorem sumBy_zero {α : Type} (l : List α) : sumBy l (fun _ => (0 : ℚ)) = 0 := by
  simp [sumBy]

theorem sumBy_ite_filter {α : Type} (l : List α) (p : α → Bool) (f : α → ℚ) :
    sumBy l (fun x => if p x then f x else 0) = sumBy (l.filter p) f := by
  induction l with
  | nil => simp [sumBy]
  | cons x xs ih =>
    by_cases h : p x = true
    · simp only [sumBy, List.map_cons, List.sum_cons, List.filter_cons, h, if_true] at ih ⊢
      rw [ih]
    · have h' : p x = false := by simpa using h
      simp only [sumBy, List.map_cons, List.sum_cons, List.filter_cons, h', if_false,
        Bool.false_eq_true, zero_add] at ih ⊢
      rw [ih]

theorem sumBy_filter_partition {α : Type} (l : List α) (p : α → Bool) (f : α → ℚ) :
    sumBy l f = sumBy (l.filter p) f + sumBy (l.filter (fun x => !(p x))) f := by
  rw [← sumBy_ite_filter l p f, ← sumBy_ite_filter l (fun x => !(p x)) f, ← sumBy_add]
  apply sumBy_congr
  intro x _
  by_cases h : p x = true <;> simp [h]

theorem sumBy_mul_right {α : Type} (l : List α) (f : α → ℚ) (c : ℚ) :
    sumBy l f * c = sumBy l (fun x => f x * c) := by
  induction l with
  | nil => simp [sumBy]
  | cons x xs ih =>
    simp only [sumBy, List.map_cons, List.sum_cons] at ih ⊢
    rw [← ih]
    ring

theorem sum_partition {α K : Type} [DecidableEq K] (κ : α → K) (F : K → α → ℚ) :
    ∀ (keys : List K) (l : List α), keys.Nodup → (∀ r ∈ l, κ r ∈ keys) →
      (keys.map (fun g => sumBy (l.filter (fun r => κ r = g)) (F g))).sum
        = sumBy l (fun r => F (κ r) r) := by
  intro keys
  induction keys with
  | nil =>
    intro l _ hcov
    have hl : l = [] := by
      cases l with
      | nil => rfl
      | cons x xs => exact absurd (hcov x (List.mem_cons_self x xs)) (List.not_mem_nil _)
    subst hl
    simp [sumBy]
  | cons g rest ih =>
    intro l hnd hcov
    rw [List.map_cons, List.sum_cons]
    rw [sumBy_filter_partition l (fun r => κ r = g) (fun r => F (κ r) r)]
    have h1 : sumBy (l.filter (fun r => κ r = g)) (fun r => F (κ r) r)
        = sumBy (l.filter (fun r => κ r = g)) (F g) := by
      apply sumBy_congr
      intro r hr
      have := (List.mem_filter.mp hr).2
      rw [decide_eq_true_eq.mp this]
    have h2 : (rest.map (fun g' => sumBy (l.filter (fun r => κ r = g')) (F g'))).sum
        = sumBy (l.filter (fun r => !(decide (κ r = g)))) (fun r => F (κ r) r) := by
      rw [← ih (l.filter (fun r => !(decide (κ r = g)))) (List.Nodup.of_cons hnd) ?hcov]
      · apply congrArg
        apply List.map_congr_left
        intro g' hg'
        have hne : g' ≠ g := by
          intro hc
          exact (List.nodup_cons.mp hnd).1 (hc ▸ hg')
        apply congrArg (fun l' => sumBy l' (F g'))
        rw [List.filter_filter]
        apply List.filter_congr
        intro r _
        by_cases hr : κ r = g'
        · have : ¬ κ r = g := fun hc => hne (hr.symm.trans hc)
          simp [hr, this, hne]
        · simp [hr]
      case hcov =>
        intro r hr
        rcases List.mem_filter.mp hr with ⟨hrl, hrneq⟩
        rcases List.mem_cons.mp (hcov r hrl) with hc | hc
        · simp [hc] at hrneq
        · exact hc
    rw [h1, h2]

theorem foldl_pair_sum {K : Type} (f₁ f₂ : K → ℚ) :
    ∀ (keys : List K) (a b : ℚ),
      keys.foldl (fun acc g => (acc.1 + f₁ g, acc.2 + f₂ g)) (a, b)
        = (a + (keys.map f₁).sum, b + (keys.map f₂).sum) := by
  intro keys
  induction keys with
  | nil => intro a b; simp
  | cons g rest ih =>
    intro a b
    rw [List.foldl_cons, ih]
    rw [List.map_cons, List.sum_cons, List.map_cons, List.sum_cons]
    refine Prod.ext ?_ ?_ <;> simp <;> ring

/-- The per-group accumulation of `getSummary` equals a pair of direct
sums over the rule-matched eligible rows: non-matched rows contribute to
neither component. -/
theorem summaryEarnings_eq (m : List (String × ℚ)) (eligRows : List LedgerRow) :
    summaryEarnings m eligRows =
      (sumBy (eligRows.filter (fun r => (ruleMatchPct m r.groupId).isSome)) (·.ibCommission),
       sumBy (eligRows.filter (fun r => (ruleMatchPct m r.groupId).isSome))
         (fun r => r.volumeLots * ((ruleMatchPct m r.groupId).getD 0 / 100))) := by
  unfold summaryEarnings
  have hstep :
      (fun (acc : ℚ × ℚ) (g : Option String) =>
        match ruleMatchPct m g with
        | none => acc
        | some pct =>
          (acc.1 + sumBy (eligRows.filter (fun r => r.groupId = g)) (·.ibCommission),
           acc.2 + sumBy (eligRows.filter (fun r => r.groupId = g)) (·.volumeLots) * (pct / 100)))
      = (fun (acc : ℚ × ℚ) (g : Option String) =>
          (acc.1 + (match ruleMatchPct m g with
            | none => 0
            | some _ => sumBy (eligRows.filter (fun r => r.groupId = g)) (·.ibCommission)),
           acc.2 + (match ruleMatchPct m g with
            | none => 0
            | some pct =>
              sumBy (eligRows.filter (fun r => r.groupId = g)) (·.volumeLots) * (pct / 100)))) := by
    funext acc g
    cases h : ruleMatchPct m g <;> simp [h]
  rw [hstep, foldl_pair_sum, zero_add, zero_add]
  have hfix :
      (((eligRows.map (·.groupId)).dedup).map (fun g =>
        match ruleMatchPct m g with
        | none => 0
        | some _ => sumBy (eligRows.filter (fun r => r.groupId = g)) (·.ibCommission))).sum
      = sumBy (eligRows.filter (fun r => (ruleMatchPct m r.groupId).isSome)) (·.ibCommission) := by
    have hpart := sum_partition (fun r : LedgerRow => r.groupId)
      (fun g r => match ruleMatchPct m g with
        | none => 0
        | some _ => r.ibCommission)
      ((eligRows.map (·.groupId)).dedup) eligRows
      (List.nodup_dedup _)
      (fun r hr => List.mem_dedup.mpr (List.mem_map_of_mem _ hr))
    have hmap : List.map (fun g =>
        match ruleMatchPct m g with
        | none => (0 : ℚ)
        | some _ => sumBy (eligRows.filter (fun r => r.groupId = g)) (·.ibCommission))
        ((eligRows.map (·.groupId)).dedup)
      = List.map (fun g => sumBy (eligRows.filter (fun r => r.groupId = g))
          (fun r => match ruleMatchPct m g with
            | none => (0 : ℚ)
            | some _ => r.ibCommission)) ((eligRows.map (·.groupId)).dedup) := by
      apply List.map_congr_left
      intro g _
      cases h : ruleMatchPct m g with
      | none => simp only [h]; rw [sumBy_zero]
      | some pct => simp only [h]
    rw [hmap, hpart, ← sumBy_ite_filter]
    apply sumBy_congr
    intro r _
    cases h : ruleMatchPct m r.groupId <;> simp [h]
  have hspread :
      (((eligRows.map (·.groupId)).dedup).map (fun g =>
        match ruleMatchPct m g with
        | none => 0
        | some pct =>
          sumBy (eligRows.filter (fun r => r.groupId = g)) (·.volumeLots) * (pct / 100))).sum
      = sumBy (eligRows.filter (fun r => (ruleMatchPct m r.groupId).isSome))
          (fun r => r.volumeLots * ((ruleMatchPct m r.groupId).getD 0 / 100)) := by
    have hpart := sum_partition (fun r : LedgerRow => r.groupId)
      (fun g r => match ruleMatchPct m g with
        | none => 0
        | some pct => r.volumeLots * (pct / 100))
      ((eligRows.map (·.groupId)).dedup) eligRows
      (List.nodup_dedup _)
      (fun r hr => List.mem_dedup.mpr (List.mem_map_of_mem _ hr))
    have hmap : List.map (fun g =>
        match ruleMatchPct m g with
        | none => (0 : ℚ)
        | some pct =>
          sumBy (eligRows.filter (fun r => r.groupId = g)) (·.volumeLots) * (pct / 100))
        ((eligRows.map (·.groupId)).dedup)
      = List.map (fun g => sumBy (eligRows.filter (fun r => r.groupId = g))
          (fun r => match ruleMatchPct m g with
            | none => (0 : ℚ)
            | some pct => r.volumeLots * (pct / 100))) ((eligRows.map (·.groupId)).dedup) := by
      apply List.map_congr_left
      intro g _
      cases h : ruleMatchPct m g with
      | none => simp only [h]; rw [sumBy_zero]
      | some pct =>
        simp only [h]
        exact sumBy_mul_right _ _ _
    rw [hmap, hpart, ← sumBy_ite_filter]
    apply sumBy_congr
    intro r _
    cases h : ruleMatchPct m r.groupId <;> simp [h]
  rw [hfix, hspread]

/-- One group-bucket row of the `GET /overview` summary query
(`group_id, trades, lots, profit, fixed`). -/
structure OverviewGroupRow where
  groupId : Option String
  trades : Nat
  lots : ℚ
  profit : ℚ
  fixed : ℚ
  deriving DecidableEq, Repr

/-- The `summary` object of `GET /overview`. -/
@[ext]
structure OverviewSummary where
  totalTrades : Nat
  totalLots : ℚ
  totalProfit : ℚ
  fixedCommission : ℚ
  spreadCommission : ℚ
  totalCommission : ℚ
  deriving DecidableEq, Repr

/-- `String(row.group_id || '').toLowerCase().includes('demo')`. -/
def ovDemo (g : Option String) : Bool :=
  containsStr (lowerStr (g.getD "")) "demo"

/-- The `assignmentMap` of `GET /overview`: candidate keys of each
assignment's `group_id` mapped to its spread percentage. -/
def overviewAssignMap (assignRows : List (Option String × ℚ)) : List (String × ℚ) :=
  assignRows.foldl (fun m r => (makeKeysOpt r.1).foldl (fun m' k => objSet m' k r.2) m) []

/-- One iteration of the `GET /overview` accumulation loop: skip demo
groups, skip rows whose candidate keys miss the assignment map, else
accumulate trades/lots/profit/fixed and `lots × pct/100` spread. -/
def overviewStep (m : List (String × ℚ)) (acc : OverviewSummary) (row : OverviewGroupRow) :
    OverviewSummary :=
  if ovDemo row.groupId then acc
  else
    match ruleMatchPct m row.groupId with
    | none => acc
    | some pct =>
      { totalTrades := acc.totalTrades + row.trades
        totalLots := acc.totalLots + row.lots
        totalProfit := acc.totalProfit + row.profit
        fixedCommission := acc.fixedCommission + row.fixed
        spreadCommission := acc.spreadCommission + row.lots * (pct / 100)
        totalCommission := acc.totalCommission }

/-- The accumulated `summary` object before the final total is written. -/
def overviewBase (assignRows : List (Option String × ℚ)) (rows : List OverviewGroupRow) :
    OverviewSummary :=
  rows.foldl (overviewStep (overviewAssignMap assignRows)) ⟨0, 0, 0, 0, 0, 0⟩

/-- The `GET /overview` summary block: fold the loop from the zero
summary, then set `totalCommission = fixedCommission + spreadCommission`. -/
def overviewSummary (assignRows : List (Option String × ℚ)) (rows : List OverviewGroupRow) :
    OverviewSummary :=
  { overviewBase assignRows rows with
    totalCommission := (overviewBase assignRows rows).fixedCommission +
      (overviewBase assignRows rows).spreadCommission }

/-- A group row survives the overview loop iff it is not a demo group and
some candidate key matches the assignment map. -/
def ovKeep (m : List (String × ℚ)) (row : OverviewGroupRow) : Bool :=
  !(ovDemo row.groupId) && (ruleMatchPct m row.groupId).isSome

/-- Sum of a `Nat`-valued projection over a list. -/
def sumNatBy {α : Type} (l : List α) (f : α → Nat) : Nat :=
  (l.map f).sum

theorem overview_foldl (m : List (String × ℚ)) :
    ∀ (rows : List OverviewGroupRow) (acc : OverviewSummary),
      rows.foldl (overviewStep m) acc =
        { totalTrades := acc.totalTrades + sumNatBy (rows.filter (ovKeep m)) (·.trades)
          totalLots := acc.totalLots + sumBy (rows.filter (ovKeep m)) (·.lots)
          totalProfit := acc.totalProfit + sumBy (rows.filter (ovKeep m)) (·.profit)
          fixedCommission := acc.fixedCommission + sumBy (rows.filter (ovKeep m)) (·.fixed)
          spreadCommission := acc.spreadCommission +
            sumBy (rows.filter (ovKeep m))
              (fun row => row.lots * ((ruleMatchPct m row.groupId).getD 0 / 100))
          totalCommission := acc.totalCommission } := by
  intro rows
  induction rows with
  | nil =>
    intro acc
    simp only [List.foldl_nil, List.filter_nil]
    ext <;> simp [sumNatBy, sumBy]
  | cons row rest ih =>
    intro acc
    rw [List.foldl_cons, ih]
    by_cases hd : ovDemo row.groupId = true
    · have hk : ovKeep m row = false := by simp [ovKeep, hd]
      rw [List.filter_cons_of_neg (by simp [hk])]
      have hstep : overviewStep m acc row = acc := by
        unfold overviewStep
        rw [if_pos hd]
      rw [hstep]
    · have hd' : ovDemo row.groupId = false := by simpa using hd
      cases hr : ruleMatchPct m row.groupId with
      | none =>
        have hk : ovKeep m row = false := by simp [ovKeep, hr]
        rw [List.filter_cons_of_neg (by simp [hk])]
        have hstep : overviewStep m acc row = acc := by
          unfold overviewStep
          rw [if_neg (by simp [hd']), hr]
        rw [hstep]
      | some pct =>
        have hk : ovKeep m row = true := by simp [ovKeep, hd', hr]
        rw [List.filter_cons_of_pos (by simp [hk])]
        have hstep : overviewStep m acc row =
            { totalTrades := acc.totalTrades + row.trades
              totalLots := acc.totalLots + row.lots
              totalProfit := acc.totalProfit + row.profit
              fixedCommission := acc.fixedCommission + row.fixed
              spreadCommission := acc.spreadCommission + row.lots * (pct / 100)
              totalCommission := acc.totalCommission } := by
          unfold overviewStep
          rw [if_neg (by simp [hd']), hr]
        rw [hstep]
        ext <;> simp [sumNatBy, sumBy, hr] <;> ring

theorem ruleMatchPct_nil (g : Option String) : ruleMatchPct [] g = none := by
  unfold ruleMatchPct
  rw [List.find?_eq_none.mpr (fun k _ => by simp [objGet])]

theorem approvedMap_isEmpty_filter (m : List (String × ℚ)) (hm : m.isEmpty = true)
    (l : List LedgerRow) :
    l.filter (fun r => (ruleMatchPct m r.groupId).isSome) = [] := by
  have hm' : m = [] := by
    cases m with
    | nil => rfl
    | cons x xs => simp [List.isEmpty] at hm
  subst hm'
  apply List.filter_eq_nil_iff.mpr
  intro r _
  simp [ruleMatchPct_nil]

/-- The earnings pair of `getSummary`, as direct sums over the
rule-matched eligible rows. -/
theorem getSummaryEarnings_eq (db : SummaryDB) (ibId : Int) (periodDays now : Int) :
    getSummaryEarnings db ibId periodDays now =
      (sumBy ((db.trades.filter
          (summaryTradeEligible ibId periodDays now (resolveAllowedAccounts db ibId))).filter
          (fun r => (ruleMatchPct (approvedMapOf db.assignments ibId) r.groupId).isSome))
          (·.ibCommission),
       sumBy ((db.trades.filter
          (summaryTradeEligible ibId periodDays now (resolveAllowedAccounts db ibId))).filter
          (fun r => (ruleMatchPct (approvedMapOf db.assignments ibId) r.groupId).isSome))
          (fun r => r.volumeLots *
            ((ruleMatchPct (approvedMapOf db.assignments ibId) r.groupId).getD 0 / 100))) := by
  unfold getSummaryEarnings
  by_cases hm : (approvedMapOf db.assignments ibId).isEmpty = true
  · rw [if_pos hm, approvedMap_isEmpty_filter _ hm]
    simp [sumBy]
  · rw [if_neg hm, summaryEarnings_eq]

/-- C5.  For every `getSummary` call, `totalEarned = fixedEarned +
spreadEarned` exactly, `fixedEarned` is the sum of stored `ib_commission`
over exactly the rule-matched eligible rows, `spreadEarned` is the sum of
`volume_lots × pct/100` over the same rows (non-matched rows contribute to
neither term); and the `GET /overview` summary satisfies the same
conservation and filtered-sum shape. -/
theorem c5_commission_conservation :
    (∀ (db : SummaryDB) (ibId : Int) (periodDays now : Int),
      (getSummary db ibId periodDays now).totalEarned
        = (getSummary db ibId periodDays now).fixedEarned +
          (getSummary db ibId periodDays now).spreadEarned ∧
      (getSummary db ibId periodDays now).fixedEarned
        = sumBy ((db.trades.filter
            (summaryTradeEligible ibId periodDays now (resolveAllowedAccounts db ibId))).filter
            (fun r => (ruleMatchPct (approvedMapOf db.assignments ibId) r.groupId).isSome))
            (·.ibCommission) ∧
      (getSummary db ibId periodDays now).spreadEarned
        = sumBy ((db.trades.filter
            (summaryTradeEligible ibId periodDays now (resolveAllowedAccounts db ibId))).filter
            (fun r => (ruleMatchPct (approvedMapOf db.assignments ibId) r.groupId).isSome))
            (fun r => r.volumeLots *
              ((ruleMatchPct (approvedMapOf db.assignments ibId) r.groupId).getD 0 / 100))) ∧
    (∀ (assignRows : List (Option String × ℚ)) (rows : List OverviewGroupRow),
      (overviewSummary assignRows rows).totalCommission
        = (overviewSummary assignRows rows).fixedCommission +
          (overviewSummary assignRows rows).spreadCommission ∧
      (overviewSummary assignRows rows).fixedCommission
        = sumBy (rows.filter (ovKeep (overviewAssignMap assignRows))) (·.fixed) ∧
      (overviewSummary assignRows rows).spreadCommission
        = sumBy (rows.filter (ovKeep (overviewAssignMap assignRows)))
            (fun row => row.lots *
              ((ruleMatchPct (overviewAssignMap assignRows) row.groupId).getD 0 / 100))) := by
  constructor
  · intro db ibId periodDays now
    refine ⟨rfl, ?_, ?_⟩
    · exact congrArg Prod.fst (getSummaryEarnings_eq db ibId periodDays now)
    · exact congrArg Prod.snd (getSummaryEarnings_eq db ibId periodDays now)
  · intro assignRows rows
    refine ⟨rfl, ?_, ?_⟩
    · show (overviewBase assignRows rows).fixedCommission = _
      unfold overviewBase
      rw [overview_foldl]
      simp
    · show (overviewBase assignRows rows).spreadCommission = _
      unfold overviewBase
      rw [overview_foldl]
      simp

/-- C7.  The withdrawal summary clamps availability at zero:
`available = max(totalEarned − totalPaid − pending, 0) ≥ 0`, `totalPaid`
sums the partner's paid/completed withdrawal rows, `pending` sums the
pending ones, and `totalEarned` is the approved-group commission
aggregation (per-row `ib_commission + volume_lots × pct/100` over the
rule-matched eligible rows, with the optional trailing window folded into
eligibility). -/
theorem c7_withdrawal_summary :
    ∀ (db : SummaryDB) (ibId : Int) (periodDays now : Int),
      (getSummary db ibId periodDays now).available
        = max ((getSummary db ibId periodDays now).totalEarned -
            (getSummary db ibId periodDays now).totalPaid -
            (getSummary db ibId periodDays now).pending) 0 ∧
      0 ≤ (getSummary db ibId periodDays now).available ∧
      (getSummary db ibId periodDays now).totalPaid
        = sumBy (db.withdrawals.filter (fun w => w.ibRequestId = ibId && statusPaid w))
            (·.amount) ∧
      (getSummary db ibId periodDays now).pending
        = sumBy (db.withdrawals.filter
            (fun w => w.ibRequestId = ibId && lowerStr w.status = "pending")) (·.amount) ∧
      (getSummary db ibId periodDays now).totalEarned
        = sumBy ((db.trades.filter
            (summaryTradeEligible ibId periodDays now (resolveAllowedAccounts db ibId))).filter
            (fun r => (ruleMatchPct (approvedMapOf db.assignments ibId) r.groupId).isSome))
            (fun r => r.ibCommission + r.volumeLots *
              ((ruleMatchPct (approvedMapOf db.assignments ibId) r.groupId).getD 0 / 100)) := by
  intro db ibId periodDays now
  refine ⟨rfl, le_max_right _ _, rfl, rfl, ?_⟩
  rw [sumBy_add]
  show (getSummaryEarnings db ibId periodDays now).1 +
    (getSummaryEarnings db ibId periodDays now).2 = _
  rw [getSummaryEarnings_eq]

/-- C10.  When the approved-groups earnings computation throws, the
error is swallowed: the summary falls back to `totalEarned =
SUM(ib_commission)` over ALL of the partner's ledger rows — with no
approved-group filter, no demo exclusion, no close-price/profit
eligibility filter, no account restriction and no time window —
`spreadEarned = 0`, `fixedEarned = totalEarned`, and `available` still
clamped at zero. -/
theorem c10_fallback_summary :
    ∀ (db : SummaryDB) (ibId : Int) (periodDays now : Int),
      getSummaryRun true db ibId periodDays now = getSummaryFallback db ibId ∧
      (getSummaryFallback db ibId).totalEarned
        = sumBy (db.trades.filter (fun r => r.ibRequestId = some ibId)) (·.ibCommission) ∧
      (getSummaryFallback db ibId).spreadEarned = 0 ∧
      (getSummaryFallback db ibId).fixedEarned = (getSummaryFallback db ibId).totalEarned ∧
      (getSummaryFallback db ibId).available
        = max ((getSummaryFallback db ibId).totalEarned -
            (getSummaryFallback db ibId).totalPaid - (getSummaryFallback db ibId).pending) 0 ∧
      0 ≤ (getSummaryFallback db ibId).available ∧
      (getSummaryFallback db ibId).totalPaid
        = sumBy (db.withdrawals.filter (fun w => w.ibRequestId = ibId && statusPaid w))
            (·.amount) ∧
      (getSummaryFallback db ibId).pending
        = sumBy (db.withdrawals.filter
            (fun w => w.ibRequestId = ibId && lowerStr w.status = "pending")) (·.amount) := by
  intro db ibId periodDays now
  exact ⟨rfl, rfl, rfl, rfl, rfl, le_max_right _ _, rfl, rfl⟩

/-- Outcome of `POST /withdrawals`. -/
inductive WithdrawOutcome where
  | rejected (msg : String)
  | accepted
  deriving DecidableEq, Repr

/-- The request body of `POST /withdrawals` after JS coercion: a missing
or falsy amount coerces below the `<= 0` guard, missing strings to `""`. -/
structure WithdrawReq where
  amount : ℚ
  paymentMethod : String
  accountDetails : String
  deriving DecidableEq, Repr

/-- `String(paymentMethod).toLowerCase().startsWith('usdt')`. -/
def strBeginsUsdt (s : String) : Bool :=
  match s.data with
  | 'u' :: 's' :: 'd' :: 't' :: _ => true
  | _ => false

/-- `POST /withdrawals` (`routes/auth.js` 369–399): reject non-positive
amounts and missing payment methods, auto-fill the USDT address (rejecting
when none is on file), then persist a `pending` row unconditionally — the
handler never consults the available balance. -/
def postWithdrawal (db : List WithdrawalRow) (ibId : Int) (req : WithdrawReq)
    (approvedAddrs : List String) : WithdrawOutcome × List WithdrawalRow :=
  if req.amount ≤ 0 then (.rejected "Valid amount required", db)
  else if req.paymentMethod = "" then (.rejected "Payment method required", db)
  else if strBeginsUsdt (lowerStr req.paymentMethod) && req.accountDetails = "" then
    if approvedAddrs.headD "" = "" then (.rejected "No approved USDT address on file", db)
    else (.accepted, db ++ [⟨ibId, req.amount, "pending"⟩])
  else (.accepted, db ++ [⟨ibId, req.amount, "pending"⟩])

/-- C8 (counterexample).  Against an empty database the partner's
available balance is 0, yet a withdrawal request for 100 is accepted and a
pending row is persisted: the route performs no available-balance check,
so the claim's "rejected and no withdrawal row is persisted" fails. -/
theorem c8_no_balance_check_counterexample :
    (postWithdrawal [] 7 ⟨100, "bank", "acct"⟩ []).1 = WithdrawOutcome.accepted ∧
    (postWithdrawal [] 7 ⟨100, "bank", "acct"⟩ []).2 = [⟨7, 100, "pending"⟩] ∧
    (getSummary ⟨[], [], [], [], [], []⟩ 7 0 0).available = 0 ∧
    (getSummary ⟨[], [], [], [], [], []⟩ 7 0 0).available < 100 := by
  refine ⟨by decide, by decide, by decide, by decide⟩

/-- C8 (amended).  `POST /withdrawals` rejects requests with amount ≤ 0
(descriptive reason, nothing persisted), and rejects a missing payment
method likewise; every other request — including one whose amount exceeds
the current available balance — is accepted and persisted as a `pending`
row.  No available-balance check is performed. -/
theorem c8_withdrawal_create :
    ∀ (db : List WithdrawalRow) (ibId : Int) (req : WithdrawReq) (addrs : List String),
      (req.amount ≤ 0 →
        postWithdrawal db ibId req addrs = (.rejected "Valid amount required", db)) ∧
      (req.amount > 0 → req.paymentMethod = "" →
        postWithdrawal db ibId req addrs = (.rejected "Payment method required", db)) ∧
      (req.amount > 0 → req.paymentMethod ≠ "" →
        ¬(strBeginsUsdt (lowerStr req.paymentMethod) = true ∧ req.accountDetails = "" ∧
          addrs.headD "" = "") →
        (postWithdrawal db ibId req addrs).1 = WithdrawOutcome.accepted ∧
        (postWithdrawal db ibId req addrs).2 = db ++ [⟨ibId, req.amount, "pending"⟩]) := by
  intro db ibId req addrs
  refine ⟨?_, ?_, ?_⟩
  · intro h
    unfold postWithdrawal
    rw [if_pos h]
  · intro h1 h2
    unfold postWithdrawal
    rw [if_neg (not_le.mpr h1), if_pos h2]
  · intro h1 h2 h3
    unfold postWithdrawal
    rw [if_neg (not_le.mpr h1), if_neg h2]
    by_cases hu : (strBeginsUsdt (lowerStr req.paymentMethod) && req.accountDetails = "") = true
    · rw [if_pos hu]
      rcases Bool.and_eq_true_iff.mp hu with ⟨hu1, hu2⟩
      have hhead : ¬ addrs.headD "" = "" := fun hc =>
        h3 ⟨hu1, by simpa using hu2, hc⟩
      rw [if_neg hhead]
      exact ⟨rfl, rfl⟩
    · rw [if_neg hu]
      exact ⟨rfl, rfl⟩

/-- C8 witness: the amended behaviour at a concrete over-available
request (amount 250, empty ledger): accepted and persisted pending. -/
theorem c8_withdrawal_witness :
    (250 : ℚ) > 0 ∧ ("bank transfer" : String) ≠ "" ∧
    (postWithdrawal [] 9 ⟨250, "bank transfer", "iban"⟩ []).1 = WithdrawOutcome.accepted ∧
    (postWithdrawal [] 9 ⟨250, "bank transfer", "iban"⟩ []).2 = [⟨9, 250, "pending"⟩] :=
  ⟨by decide, by decide,
   ((c8_withdrawal_create [] 9 ⟨250, "bank transfer", "iban"⟩ []).2.2 (by decide) (by decide)
      (by decide)).1,
   ((c8_withdrawal_create [] 9 ⟨250, "bank transfer", "iban"⟩ []).2.2 (by decide) (by decide)
      (by decide)).2⟩

/-- The WHERE clause of the per-client last-trade query in
`GET /api/user/clients` (`routes/userClients.js` 144–177): partner match,
client user match, eligibility, and — only when the partner's own linked
user id exists AND differs from the client's — the exclusion
`user_id != ibUserId`. -/
def lastTradeEligible (ibId : Int) (clientUserId : String) (ibUserId : Option String)
    (r : LedgerRow) : Bool :=
  r.ibRequestId = some ibId &&
  r.userId = some clientUserId &&
  (match r.closePrice with | some c => c ≠ 0 | none => false) &&
  (match r.profit with | some q => q ≠ 0 | none => false) &&
  (match ibUserId with
   | some iu => if iu ≠ clientUserId then r.userId ≠ some iu else true
   | none => true)

/-- `MAX(synced_at)` over the rows the last-trade query selects. -/
def lastTrade (db : List LedgerRow) (ibId : Int) (clientUserId : String)
    (ibUserId : Option String) : Option Int :=
  (db.filter (lastTradeEligible ibId clientUserId ibUserId)).foldl
    (fun acc r =>
      match acc with
      | none => some r.syncedAt
      | some t => some (max t r.syncedAt)) none

/-- C9 (counterexample).  When the partner is registered as a trader
under their own referral code (client user id = partner user id `u1`),
the exclusion clause is skipped and the partner's own trade determines
the client's last-trade value: the partner's own trades DO appear in the
downline computation. -/
theorem c9_own_trades_counterexample :
    lastTrade
      [⟨"8001-9", "9", "8001", some "u1", some 7, "EURUSD", "buy", 1, some 1, some 2, some 5,
        0, some 0, some 0, none, 100⟩] 7 "u1" (some "u1") = some 100 := by
  decide

/-- C9 (amended).  For every client whose linked user differs from the
partner's own linked user, the last-trade computation only consults rows
of that client and never a row carrying the partner's own user id; when
the partner itself is the client (same user id) the exclusion is
deliberately skipped and their own rows are consulted. -/
theorem c9_downline_exclusion :
    ∀ (db : List LedgerRow) (ibId : Int) (clientUserId iu : String) (r : LedgerRow),
      iu ≠ clientUserId →
      r ∈ db.filter (lastTradeEligible ibId clientUserId (some iu)) →
      r.userId = some clientUserId ∧ r.userId ≠ some iu := by
  intro db ibId clientUserId iu r hne hr
  have helig := (List.mem_filter.mp hr).2
  unfold lastTradeEligible at helig
  simp only [Bool.and_eq_true, decide_eq_true_eq] at helig
  refine ⟨helig.1.1.1.2, ?_⟩
  have hE := helig.2
  rw [if_pos hne] at hE
  exact of_decide_eq_true hE

/-- C9 witness: a genuine client (`u2`) of a partner whose own user is
`u1`; the selected row carries the client's id and not the partner's. -/
theorem c9_downline_witness :
    ("u1" : String) ≠ "u2" ∧
    (⟨"8001-9", "9", "8001", some "u2", some 7, "EURUSD", "buy", 1, some 1, some 2, some 5,
        0, some 0, some 0, none, 100⟩ : LedgerRow) ∈
      List.filter (lastTradeEligible 7 "u2" (some "u1"))
        [⟨"8001-9", "9", "8001", some "u2", some 7, "EURUSD", "buy", 1, some 1, some 2, some 5,
        0, some 0, some 0, none, 100⟩] ∧
    (⟨"8001-9", "9", "8001", some "u2", some 7, "EURUSD", "buy", 1, some 1, some 2, some 5,
        0, some 0, some 0, none, 100⟩ : LedgerRow).userId ≠ some "u1" :=
  ⟨by decide, by decide,
   (c9_downline_exclusion
     [⟨"8001-9", "9", "8001", some "u2", some 7, "EURUSD", "buy", 1, some 1, some 2, some 5,
        0, some 0, some 0, none, 100⟩] 7 "u2" "u1"
     ⟨"8001-9", "9", "8001", some "u2", some 7, "EURUSD", "buy", 1, some 1, some 2, some 5,
        0, some 0, some 0, none, 100⟩ (by decide) (by decide)).2⟩

end ZupIB
